import Mathlib

/-!
Verification of the QR repository's partitioned re-bucketing engine
(`src/quant_research/data_portal/hl_ctxs_to_parquet.py`) and the
regular-trading-hours filter (`src/quant_research/processing/clean_intraday.py`),
as a shallow embedding in Lean 4.

Conventions:
* pyarrow tables become lists of typed columns or lists of typed rows;
* nullable cells are `Option` values;
* machine timestamps are `Int` nanoseconds since the Unix epoch;
* fallible library calls (casts, `strptime`) return `Option`;
* the `OrderedDict` writer pool becomes a duplicate-free `List` of keys,
  head = least recently used, tail = most recently used.
-/

namespace QR

/-! ### Row-group slicing (`split_asset_ctxs_by_coin_month`, write loop)

The source writes a coin-month sub-batch `cm_tbl` as

    if cm_tbl.num_rows > row_group_size:
        for start in range(0, cm_tbl.num_rows, row_group_size):
            writer.write_table(cm_tbl.slice(start, row_group_size))
    else:
        writer.write_table(cm_tbl)

`slice(start, length)` truncates at the end of the table.  We model the
sub-batch as a list of rows; `range(0, n, step)` with `step = 0` raises
`ValueError` in Python, modelled as `none`. -/

def writeSlicesLoop (rgs : Nat) (xs : List Nat) : Nat → Nat → List (List Nat)
  | _start, 0 => []
  | start, fuel + 1 =>
    if start < xs.length then
      ((xs.drop start).take rgs) :: writeSlicesLoop rgs xs (start + rgs) fuel
    else
      []

/-- The sequence of slices written for one coin-month sub-batch `xs` under
row-group limit `rgs`.  `none` models Python's `ValueError` on a zero step.
The fuel `xs.length` is enough iterations: each loop step advances `start`
by `rgs ≥ 1`. -/
def writeSlices (xs : List Nat) (rgs : Nat) : Option (List (List Nat)) :=
  if rgs < xs.length then
    if 0 < rgs then some (writeSlicesLoop rgs xs 0 xs.length) else none
  else
    some [xs]

theorem writeSlicesLoop_zero (rgs : Nat) (xs : List Nat) (start : Nat) :
    writeSlicesLoop rgs xs start 0 = [] := rfl

theorem writeSlicesLoop_succ (rgs : Nat) (xs : List Nat) (start fuel : Nat) :
    writeSlicesLoop rgs xs start (fuel + 1) =
      if start < xs.length then
        ((xs.drop start).take rgs) :: writeSlicesLoop rgs xs (start + rgs) fuel
      else
        [] := rfl

theorem writeSlicesLoop_fuel_succ (rgs : Nat) (hr : 0 < rgs) (xs : List Nat) :
    ∀ fuel start, xs.length - start ≤ fuel →
      writeSlicesLoop rgs xs start fuel = writeSlicesLoop rgs xs start (fuel + 1) := by
  intro fuel
  induction fuel with
  | zero =>
    intro start h
    rw [writeSlicesLoop_zero, writeSlicesLoop_succ, if_neg (by omega)]
  | succ f ih =>
    intro start h
    rw [writeSlicesLoop_succ, writeSlicesLoop_succ]
    by_cases hs : start < xs.length
    · rw [if_pos hs, if_pos hs, ih (start + rgs) (by omega)]
    · rw [if_neg hs, if_neg hs]

theorem writeSlicesLoop_unfold (rgs : Nat) (hr : 0 < rgs) (xs : List Nat)
    (fuel start : Nat) (h : xs.length - start ≤ fuel) :
    writeSlicesLoop rgs xs start fuel =
      if start < xs.length then
        ((xs.drop start).take rgs) :: writeSlicesLoop rgs xs (start + rgs) fuel
      else
        [] := by
  cases fuel with
  | zero =>
    rw [writeSlicesLoop_zero, if_neg (by omega)]
  | succ f =>
    rw [writeSlicesLoop_succ]
    by_cases hs : start < xs.length
    · rw [if_pos hs, if_pos hs,
        writeSlicesLoop_fuel_succ rgs hr xs f (start + rgs) (by omega)]
    · rw [if_neg hs, if_neg hs]

theorem writeSlicesLoop_flatten (rgs : Nat) (hr : 0 < rgs) (xs : List Nat)
    (fuel : Nat) (hf : xs.length ≤ fuel) :
    ∀ n start, xs.length - start = n →
      (writeSlicesLoop rgs xs start fuel).flatten = xs.drop start := by
  intro n
  induction n using Nat.strong_induction_on with
  | _ n ih =>
    intro start hn
    rw [writeSlicesLoop_unfold rgs hr xs fuel start (by omega)]
    by_cases h : start < xs.length
    · simp only [h, if_pos, List.flatten_cons]
      rw [ih (xs.length - (start + rgs)) (by omega) (start + rgs) rfl]
      rw [← List.drop_drop]
      exact List.take_append_drop rgs (xs.drop start)
    · simp only [h, if_neg, not_false_iff, List.flatten_nil]
      rw [List.drop_eq_nil_of_le (by omega)]

theorem writeSlicesLoop_le (rgs : Nat) (hr : 0 < rgs) (xs : List Nat)
    (fuel : Nat) (hf : xs.length ≤ fuel) :
    ∀ n start, xs.length - start = n →
      ∀ c ∈ writeSlicesLoop rgs xs start fuel, c.length ≤ rgs := by
  intro n
  induction n using Nat.strong_induction_on with
  | _ n ih =>
    intro start hn
    rw [writeSlicesLoop_unfold rgs hr xs fuel start (by omega)]
    by_cases h : start < xs.length
    · simp only [h, if_pos, List.mem_cons]
      rintro c (rfl | hc)
      · exact List.length_take_le _ _
      · exact ih (xs.length - (start + rgs)) (by omega) (start + rgs) rfl c hc
    · simp [h]

theorem writeSlicesLoop_sizes (rgs : Nat) (hr : 0 < rgs) (h5 : 5 ≤ rgs)
    (xs : List Nat) (hx : xs.length = 2 * rgs + 5) :
    (writeSlicesLoop rgs xs 0 xs.length).map List.length = [rgs, rgs, 5] := by
  rw [writeSlicesLoop_unfold rgs hr xs _ _ (by omega), if_pos (by omega)]
  rw [writeSlicesLoop_unfold rgs hr xs _ _ (by omega), if_pos (by omega)]
  rw [writeSlicesLoop_unfold rgs hr xs _ _ (by omega), if_pos (by omega)]
  rw [writeSlicesLoop_unfold rgs hr xs _ _ (by omega), if_neg (by omega)]
  simp only [List.map_cons, List.map_nil, List.length_take, List.length_drop]
  rw [hx]
  have e1 : min rgs (2 * rgs + 5 - 0) = rgs := by omega
  have e2 : min rgs (2 * rgs + 5 - (0 + rgs)) = rgs := by omega
  have e3 : min rgs (2 * rgs + 5 - (0 + rgs + rgs)) = 5 := by omega
  rw [e1, e2, e3]

/-- **C9** (corrected).  When the row-group limit is positive and the sub-batch
exceeds it, `split_asset_ctxs_by_coin_month` writes the sub-batch as a sequence
of contiguous slices, in order, each of at most `rgs` rows (their concatenation
is the original sub-batch); and when moreover `5 ≤ rgs`, a sub-batch of
`2 * rgs + 5` rows is written as exactly three writes of sizes
`rgs`, `rgs`, `5`.  (The three-write instance fails for `rgs < 5`, see the
counterexample.) -/
theorem row_group_slicing (xs : List Nat) (rgs : Nat)
    (hr : 0 < rgs) (hx : rgs < xs.length) :
    ∃ l, writeSlices xs rgs = some l ∧ l.flatten = xs ∧
      (∀ c ∈ l, c.length ≤ rgs) ∧
      (5 ≤ rgs → xs.length = 2 * rgs + 5 → l.map List.length = [rgs, rgs, 5]) := by
  refine ⟨writeSlicesLoop rgs xs 0 xs.length, ?_, ?_, ?_, ?_⟩
  · rw [writeSlices, if_pos hx, if_pos hr]
  · simpa using writeSlicesLoop_flatten rgs hr xs xs.length le_rfl (xs.length - 0) 0 rfl
  · exact writeSlicesLoop_le rgs hr xs xs.length le_rfl (xs.length - 0) 0 rfl
  · intro h5 hlen
    exact writeSlicesLoop_sizes rgs hr h5 xs hlen

/-- **C9** witness: concrete instance of `row_group_slicing` with
`rgs = 5` and a sub-batch of `2 * 5 + 5 = 15` rows. -/
theorem row_group_slicing_witness :
    ∃ l, writeSlices (List.range 15) 5 = some l ∧ l.flatten = List.range 15 ∧
      (∀ c ∈ l, c.length ≤ 5) ∧
      (5 ≤ 5 → (List.range 15).length = 2 * 5 + 5 → l.map List.length = [5, 5, 5]) :=
  row_group_slicing (List.range 15) 5 (by decide) (by decide)

/-- **C9** counterexample to the claim as stated: with `row_group_size = 3`, a
sub-batch of `3 * 2 + 5 = 11` rows is written as four writes of sizes
`3, 3, 3, 2`, not as three writes of sizes `3, 3, 5`. -/
theorem row_group_slicing_counterexample :
    (writeSlices (List.range (3 * 2 + 5)) 3).map (List.map List.length) =
        some [3, 3, 3, 2] ∧
      some [3, 3, 3, 2] ≠ some ([3, 3, 5] : List Nat) := by
  constructor
  · decide
  · decide

/-! ### The LRU writer pool (`_writer_for`)

Source:

    def _writer_for(coin, yyyymm):
        key = (coin, yyyymm)
        if key in writers:
            writers.move_to_end(key)
            return writers[key]
        ... mkdir / unlink ...
        if len(writers) >= max_open_writers:
            old_key, old_writer = writers.popitem(last=False)  # LRU
            try: old_writer.close()
            except Exception: pass
        w = pq.ParquetWriter(...)
        writers[key] = w
        return w

The `OrderedDict` is modelled as a duplicate-free list of keys, head = least
recently used.  `popitem` on an empty dict raises `KeyError`, modelled as
`none` (only reachable when `max_open_writers = 0`). -/

abbrev PoolKey := String × String

/-- One `_writer_for` access: returns the updated pool together with the key
evicted at this access, if any. -/
def writerFor (maxOpen : Nat) (key : PoolKey) (pool : List PoolKey) :
    Option (List PoolKey × Option PoolKey) :=
  if key ∈ pool then
    some (pool.erase key ++ [key], none)
  else if maxOpen ≤ pool.length then
    match pool with
    | [] => none
    | lru :: rest => some (rest ++ [key], some lru)
  else
    some (pool ++ [key], none)

/-- All pool states reached during a run that performs the given accesses in
order, starting from `pool` (a `KeyError` from `popitem` aborts the run). -/
def poolStates (maxOpen : Nat) (pool : List PoolKey) :
    List PoolKey → List (List PoolKey)
  | [] => [pool]
  | k :: ks =>
    pool ::
      match writerFor maxOpen k pool with
      | none => []
      | some (pool2, _) => poolStates maxOpen pool2 ks

theorem writerFor_length (maxOpen : Nat) (key : PoolKey) (pool pool2 : List PoolKey)
    (ev : Option PoolKey) (h : writerFor maxOpen key pool = some (pool2, ev))
    (hlen : pool.length ≤ maxOpen) : pool2.length ≤ maxOpen := by
  unfold writerFor at h
  by_cases hk : key ∈ pool
  · rw [if_pos hk] at h
    obtain ⟨rfl, -⟩ : pool2 = pool.erase key ++ [key] ∧ ev = none := by
      simpa [eq_comm] using h
    have h1 : (pool.erase key).length = pool.length - 1 :=
      List.length_erase_of_mem hk
    have h2 : 0 < pool.length := List.length_pos.mpr (List.ne_nil_of_mem hk)
    simp only [List.length_append, List.length_cons, List.length_nil, h1]
    omega
  · rw [if_neg hk] at h
    by_cases hcap : maxOpen ≤ pool.length
    · rw [if_pos hcap] at h
      cases pool with
      | nil => exact absurd h (by simp)
      | cons lru rest =>
        obtain ⟨rfl, -⟩ : pool2 = rest ++ [key] ∧ ev = some lru := by
          simpa [eq_comm] using h
        simp only [List.length_append, List.length_cons, List.length_nil]
        simp only [List.length_cons] at hlen
        omega
    · rw [if_neg hcap] at h
      obtain ⟨rfl, -⟩ : pool2 = pool ++ [key] ∧ ev = none := by
        simpa [eq_comm] using h
      simp only [List.length_append, List.length_cons, List.length_nil]
      omega

theorem poolStates_bound (maxOpen : Nat) (accs : List PoolKey) :
    ∀ pool, pool.length ≤ maxOpen →
      ∀ st ∈ poolStates maxOpen pool accs, st.length ≤ maxOpen := by
  induction accs with
  | nil =>
    intro pool hp st hst
    simp only [poolStates, List.mem_singleton] at hst
    exact hst ▸ hp
  | cons k ks ih =>
    intro pool hp st hst
    simp only [poolStates, List.mem_cons] at hst
    rcases hst with rfl | hst
    · exact hp
    · cases hw : writerFor maxOpen k pool with
      | none => rw [hw] at hst; simp at hst
      | some r =>
        obtain ⟨pool2, ev⟩ := r
        rw [hw] at hst
        exact ih pool2 (writerFor_length maxOpen k pool pool2 ev hw hp) st hst

/-- **C2** (confirmed).  Starting from an empty pool, every pool state reached
during a run with `max_open_writers = N` holds at most `N` open writers; and a
`_writer_for` call on a missing key with the pool exactly at capacity
(`0 < N`) evicts exactly the single least-recently-used handle (the head of
the recency order) before admitting the new key at the most-recent end. -/
theorem writer_pool_bound (N : Nat) (accs : List PoolKey) :
    (∀ st ∈ poolStates N [] accs, st.length ≤ N) ∧
      (∀ pool key, pool.length = N → key ∉ pool → 0 < N →
        ∃ lru rest, pool = lru :: rest ∧
          writerFor N key pool = some (rest ++ [key], some lru)) := by
  constructor
  · exact poolStates_bound N accs [] (by simp)
  · intro pool key hlen hk hN
    cases pool with
    | nil => simp at hlen; omega
    | cons lru rest =>
      refine ⟨lru, rest, rfl, ?_⟩
      rw [writerFor, if_neg hk, if_pos (by omega)]

/-- **C2** witness: a run over three distinct keys with `N = 2` never holds
more than two writers, and the third access on the full pool
`[("A", "2024-01"), ("B", "2024-01")]` evicts exactly the LRU key. -/
theorem writer_pool_bound_witness :
    (∀ st ∈ poolStates 2 [] [("A", "2024-01"), ("B", "2024-01"), ("C", "2024-01")],
        st.length ≤ 2) ∧
      ∃ lru rest, [("A", "2024-01"), ("B", "2024-01")] = lru :: rest ∧
        writerFor 2 ("C", "2024-01") [("A", "2024-01"), ("B", "2024-01")] =
          some (rest ++ [("C", "2024-01")], some lru) := by
  have h := writer_pool_bound 2 [("A", "2024-01"), ("B", "2024-01"), ("C", "2024-01")]
  exact ⟨h.1, h.2 [("A", "2024-01"), ("B", "2024-01")] ("C", "2024-01")
    (by decide) (by decide) (by decide)⟩

/-! ### LRU eviction correctness

`lastIdx seen k` is the index of the last occurrence of `k` in the access
history `seen` (junk value `0` when `k` never occurs; every pooled key has
occurred).  The pool invariant: the recency list is duplicate-free and strictly
ordered by last-access index, so the head is always the least-recently-accessed
key. -/

def lastIdx : List PoolKey → PoolKey → Nat
  | [], _ => 0
  | _ :: as, k => if k ∈ as then lastIdx as k + 1 else 0

theorem lastIdx_append_self (seen : List PoolKey) (a : PoolKey) :
    lastIdx (seen ++ [a]) a = seen.length := by
  induction seen with
  | nil => simp [lastIdx]
  | cons b bs ih =>
    simp only [List.cons_append, lastIdx, List.length_cons, List.append_eq]
    rw [if_pos (by simp), ih]

theorem lastIdx_append_ne (seen : List PoolKey) (a k : PoolKey) (hne : k ≠ a) :
    lastIdx (seen ++ [a]) k = lastIdx seen k := by
  induction seen with
  | nil => simp [lastIdx, hne]
  | cons b bs ih =>
    simp only [List.cons_append, lastIdx, List.append_eq, List.mem_append,
      List.mem_singleton, hne, or_false]
    by_cases hk : k ∈ bs
    · rw [if_pos hk, if_pos hk, ih]
    · rw [if_neg hk, if_neg hk]

theorem lastIdx_lt_length (seen : List PoolKey) (k : PoolKey) (h : k ∈ seen) :
    lastIdx seen k < seen.length := by
  induction seen with
  | nil => simp at h
  | cons b bs ih =>
    simp only [lastIdx, List.length_cons]
    by_cases hk : k ∈ bs
    · rw [if_pos hk]; exact Nat.succ_lt_succ (ih hk)
    · rw [if_neg hk]; omega

/-- The invariant maintained for the pool during a run: every pooled key has
been accessed, the pool is duplicate-free, and it is strictly ordered by
last-access index (head = least recently used). -/
def PoolInv (seen pool : List PoolKey) : Prop :=
  (∀ k ∈ pool, k ∈ seen) ∧ pool.Nodup ∧
    pool.Pairwise (fun a b => lastIdx seen a < lastIdx seen b)

theorem pairwise_transport (seen : List PoolKey) (a : PoolKey) (l : List PoolKey)
    (hl : ∀ x ∈ l, x ≠ a)
    (hp : l.Pairwise (fun x y => lastIdx seen x < lastIdx seen y)) :
    l.Pairwise (fun x y => lastIdx (seen ++ [a]) x < lastIdx (seen ++ [a]) y) := by
  refine hp.imp_of_mem ?_
  intro x y hx hy hxy
  rw [lastIdx_append_ne seen a x (hl x hx), lastIdx_append_ne seen a y (hl y hy)]
  exact hxy

theorem poolInv_append (seen pool : List PoolKey) (k : PoolKey)
    (hinv : PoolInv seen pool) (hk : k ∉ pool) :
    PoolInv (seen ++ [k]) (pool ++ [k]) := by
  obtain ⟨hmem, hnd, hpw⟩ := hinv
  have hne : ∀ x ∈ pool, x ≠ k := fun x hx hxk => hk (hxk ▸ hx)
  refine ⟨?_, ?_, ?_⟩
  · intro x hx
    rcases List.mem_append.1 hx with hx | hx
    · exact List.mem_append.2 (Or.inl (hmem x hx))
    · exact List.mem_append.2 (Or.inr hx)
  · exact List.Nodup.append hnd (List.nodup_singleton k)
      (List.disjoint_singleton.2 hk)
  · rw [List.pairwise_append]
    refine ⟨pairwise_transport seen k pool hne hpw, List.pairwise_singleton _ _, ?_⟩
    intro x hx y hy
    rw [List.mem_singleton] at hy
    rw [hy, lastIdx_append_ne seen k x (hne x hx), lastIdx_append_self]
    exact lastIdx_lt_length seen x (hmem x hx)

theorem poolInv_init (accs0 : List PoolKey) : PoolInv accs0 [] :=
  ⟨fun k hk => absurd hk (List.not_mem_nil k), List.nodup_nil, List.Pairwise.nil⟩

/-- Invariant preservation for one `_writer_for` access, together with the
LRU property of the key evicted at this access (if any): the evicted key is a
pool member whose last access is at least as old as every pool member's. -/
theorem writerFor_inv (maxOpen : Nat) (seen pool : List PoolKey) (k : PoolKey)
    (hinv : PoolInv seen pool) (pool2 : List PoolKey) (ev : Option PoolKey)
    (h : writerFor maxOpen k pool = some (pool2, ev)) :
    PoolInv (seen ++ [k]) pool2 ∧
      (∀ e, ev = some e → e ∈ pool ∧
        ∀ j ∈ pool, lastIdx seen e ≤ lastIdx seen j) := by
  obtain ⟨hmem, hnd, hpw⟩ := hinv
  unfold writerFor at h
  by_cases hk : k ∈ pool
  · rw [if_pos hk] at h
    obtain ⟨rfl, rfl⟩ : pool2 = pool.erase k ++ [k] ∧ ev = none := by
      simpa [eq_comm] using h
    refine ⟨?_, by simp⟩
    have hsub : (pool.erase k).Sublist pool := List.erase_sublist k pool
    have hkne : k ∉ pool.erase k := fun hc => (List.Nodup.not_mem_erase hnd) hc
    have hninv : PoolInv seen (pool.erase k) :=
      ⟨fun x hx => hmem x (hsub.mem hx), hnd.sublist hsub, hpw.sublist hsub⟩
    exact poolInv_append seen (pool.erase k) k hninv hkne
  · rw [if_neg hk] at h
    by_cases hcap : maxOpen ≤ pool.length
    · rw [if_pos hcap] at h
      cases pool with
      | nil => exact absurd h (by simp)
      | cons lru rest =>
        obtain ⟨rfl, rfl⟩ : pool2 = rest ++ [k] ∧ ev = some lru := by
          simpa [eq_comm] using h
        constructor
        · have hsub : rest.Sublist (lru :: rest) := List.sublist_cons_self lru rest
          have hkrest : k ∉ rest := fun hc => hk (List.mem_cons_of_mem lru hc)
          have hninv : PoolInv seen rest :=
            ⟨fun x hx => hmem x (hsub.mem hx), hnd.sublist hsub, hpw.sublist hsub⟩
          exact poolInv_append seen rest k hninv hkrest
        · rintro e he
          obtain rfl : lru = e := by simpa using he
          refine ⟨List.mem_cons_self _ _, ?_⟩
          intro j hj
          rcases List.mem_cons.1 hj with rfl | hj
          · exact le_rfl
          · exact le_of_lt ((List.pairwise_cons.1 hpw).1 j hj)
    · rw [if_neg hcap] at h
      obtain ⟨rfl, rfl⟩ : pool2 = pool ++ [k] ∧ ev = none := by
        simpa [eq_comm] using h
      exact ⟨poolInv_append seen pool k ⟨hmem, hnd, hpw⟩ hk, by simp⟩

/-- The eviction trace of a run: for each access that evicted a key, the
triple (access history before this access, pool before this access, evicted
key). -/
def evictions (maxOpen : Nat) :
    List PoolKey → List PoolKey → List PoolKey →
      List (List PoolKey × List PoolKey × PoolKey)
  | _seen, _pool, [] => []
  | seen, pool, k :: ks =>
    match writerFor maxOpen k pool with
    | none => []
    | some (pool2, some e) =>
      (seen, pool, e) :: evictions maxOpen (seen ++ [k]) pool2 ks
    | some (pool2, none) => evictions maxOpen (seen ++ [k]) pool2 ks

theorem evictions_lru (maxOpen : Nat) (accs : List PoolKey) :
    ∀ seen pool, PoolInv seen pool →
      ∀ t ∈ evictions maxOpen seen pool accs,
        t.2.2 ∈ t.2.1 ∧ ∀ j ∈ t.2.1, lastIdx t.1 t.2.2 ≤ lastIdx t.1 j := by
  induction accs with
  | nil => intro seen pool _ t ht; simp [evictions] at ht
  | cons k ks ih =>
    intro seen pool hinv t ht
    unfold evictions at ht
    cases hw : writerFor maxOpen k pool with
    | none => rw [hw] at ht; simp at ht
    | some r =>
      obtain ⟨pool2, ev⟩ := r
      have hstep := writerFor_inv maxOpen seen pool k hinv pool2 ev hw
      cases ev with
      | none =>
        rw [hw] at ht
        exact ih (seen ++ [k]) pool2 hstep.1 t ht
      | some e =>
        rw [hw] at ht
        rcases List.mem_cons.1 ht with rfl | ht
        · exact hstep.2 e rfl
        · exact ih (seen ++ [k]) pool2 hstep.1 t ht

/-- **C3** (confirmed).  In any run of partition-key accesses through the
writer pool, every eviction removes exactly the least-recently-accessed key:
the evicted key is in the pool at that point and its last-access index in the
access history so far is minimal among all pooled keys (every access, create
or fetch, having marked its key most-recently-used). -/
theorem lru_eviction_correct (maxOpen : Nat) (accs : List PoolKey)
    (t : List PoolKey × List PoolKey × PoolKey)
    (ht : t ∈ evictions maxOpen [] [] accs) :
    t.2.2 ∈ t.2.1 ∧ ∀ j ∈ t.2.1, lastIdx t.1 t.2.2 ≤ lastIdx t.1 j :=
  evictions_lru maxOpen accs [] [] (poolInv_init []) t ht

/-- **C3** witness: with `max_open_writers = 2` and accesses
`A, B, A, C`, the overflow at `C` evicts `B` (not `A`, which was touched more
recently); the trace records that `B`'s last access is minimal. -/
theorem lru_eviction_correct_witness :
    (([("A", "1"), ("B", "1"), ("A", "1")],
        [("B", "1"), ("A", "1")], (("B", "1") : PoolKey)).2.2 ∈
      ([("A", "1"), ("B", "1"), ("A", "1")],
        [("B", "1"), ("A", "1")], (("B", "1") : PoolKey)).2.1) ∧
      ∀ j ∈ ([("A", "1"), ("B", "1"), ("A", "1")],
          [("B", "1"), ("A", "1")], (("B", "1") : PoolKey)).2.1,
        lastIdx [("A", "1"), ("B", "1"), ("A", "1")] ("B", "1") ≤
          lastIdx [("A", "1"), ("B", "1"), ("A", "1")] j :=
  lru_eviction_correct 2 [("A", "1"), ("B", "1"), ("A", "1"), ("C", "1")]
    ([("A", "1"), ("B", "1"), ("A", "1")], [("B", "1"), ("A", "1")], ("B", "1"))
    (by decide)

/-! ### `_writer_for` with its filesystem effects (overwrite policy)

On a missing key the source makes the coin directory, applies the overwrite
policy (`if overwrite and out_path.exists(): out_path.unlink()`), evicts the
LRU writer if at capacity, and opens a fresh `ParquetWriter` at the target
path (which creates a new, empty file there).  Files on disk are modelled as
an association list from partition key (standing for the output path
`out_dir/coin/yyyymm.parquet`, injective in the key) to the number of rows
the file holds. -/

structure FsState where
  pool : List PoolKey
  files : List (PoolKey × Nat)
  deriving DecidableEq, Repr

def getFile : List (PoolKey × Nat) → PoolKey → Option Nat
  | [], _ => none
  | (k, v) :: rest, key => if k = key then some v else getFile rest key

def removeFile : List (PoolKey × Nat) → PoolKey → List (PoolKey × Nat)
  | [], _ => []
  | (k, v) :: rest, key =>
    if k = key then removeFile rest key else (k, v) :: removeFile rest key

def setFile (files : List (PoolKey × Nat)) (key : PoolKey) (v : Nat) :
    List (PoolKey × Nat) :=
  (key, v) :: removeFile files key

/-- `if overwrite and out_path.exists(): out_path.unlink()` -/
def applyOverwrite (overwrite : Bool) (files : List (PoolKey × Nat))
    (key : PoolKey) : List (PoolKey × Nat) :=
  if overwrite && (getFile files key).isSome then removeFile files key else files

/-- `_writer_for` with filesystem effects.  Returns the new state, whether the
overwrite policy deleted an existing file at the key's output path, and the
key evicted at this access (its file stays on disk, closed).  `none` models
the `KeyError` from `popitem` on an empty pool (`max_open_writers = 0`).
Opening the fresh `ParquetWriter` creates a new empty file at the key's path
(`setFile _ key 0`); `coin_dir.mkdir` is a no-op in the model. -/
def writerForFS (maxOpen : Nat) (overwrite : Bool) (key : PoolKey)
    (s : FsState) : Option (FsState × Bool × Option PoolKey) :=
  if key ∈ s.pool then
    some ({ s with pool := s.pool.erase key ++ [key] }, false, none)
  else if maxOpen ≤ s.pool.length then
    match s.pool with
    | [] => none
    | lru :: rest =>
      -- old_writer.close(): the evicted key's file stays as written
      some (⟨rest ++ [key], setFile (applyOverwrite overwrite s.files key) key 0⟩,
        overwrite && (getFile s.files key).isSome, some lru)
  else
    some (⟨s.pool ++ [key], setFile (applyOverwrite overwrite s.files key) key 0⟩,
      overwrite && (getFile s.files key).isSome, none)

theorem getFile_setFile (files : List (PoolKey × Nat)) (key : PoolKey) (v : Nat) :
    getFile (setFile files key v) key = some v := by
  simp [setFile, getFile]

/-- **C4** (confirmed).  A key not (any longer) in the pool that is requested
while a file for it exists on disk — in particular a key evicted earlier in
the run and now re-requested — is treated as brand-new: with the overwrite
policy enabled, the existing file at its output path is deleted and a fresh
writer starts an empty file there (rather than appending to the old rows),
and the key is admitted at the most-recently-used end of the pool. -/
theorem evicted_key_restarts_fresh (maxOpen : Nat) (key : PoolKey) (s : FsState)
    (rows : Nat) (hkey : key ∉ s.pool) (hfile : getFile s.files key = some rows)
    (hN : 0 < maxOpen) :
    ∃ s2 ev, writerForFS maxOpen true key s = some (s2, true, ev) ∧
      getFile s2.files key = some 0 ∧ s2.pool.getLast? = some key := by
  unfold writerForFS
  rw [if_neg hkey]
  have hdel : (true && (getFile s.files key).isSome) = true := by
    rw [hfile]; rfl
  by_cases hcap : maxOpen ≤ s.pool.length
  · rw [if_pos hcap]
    cases hp : s.pool with
    | nil => rw [hp] at hcap; simp at hcap; omega
    | cons lru rest =>
      rw [hdel]
      exact ⟨_, some lru, rfl, getFile_setFile _ _ _, by simp [List.getLast?_append]⟩
  · rw [if_neg hcap, hdel]
    exact ⟨_, none, rfl, getFile_setFile _ _ _, by simp [List.getLast?_append]⟩

/-- **C4** witness: key `("BTC", "2024-08")` was evicted (pool now holds only
`("ETH", "2024-08")`) and its file holds 7 rows; re-requesting it deletes that
file and starts a fresh empty one. -/
theorem evicted_key_restarts_fresh_witness :
    ∃ s2 ev,
      writerForFS 64 true ("BTC", "2024-08")
          ⟨[("ETH", "2024-08")], [(("BTC", "2024-08"), 7)]⟩ =
        some (s2, true, ev) ∧
      getFile s2.files ("BTC", "2024-08") = some 0 ∧
      s2.pool.getLast? = some ("BTC", "2024-08") :=
  evicted_key_restarts_fresh 64 ("BTC", "2024-08")
    ⟨[("ETH", "2024-08")], [(("BTC", "2024-08"), 7)]⟩ 7
    (by decide) (by decide) (by decide)

/-! ### Cleanup on every exit path (`split_asset_ctxs_by_coin_month`)

Source:

    try:
        for rec_batch in scanner.to_batches():
            ... (may raise a data error) ...
    finally:
        for w in list(writers.values()):
            try:
                w.close()
            except Exception:
                pass

The batch loop is modelled as a list of events: a partition-key access (which
opens / touches a writer) or a data error raised mid-run.  `closeAll` models
the `finally` loop: every handle is attempted in order; a close failure
(given by the oracle `failClose`) is swallowed and the loop continues. -/

inductive RunEvent
  | access (k : PoolKey)
  | dataError
  deriving DecidableEq, Repr

/-- The batch loop: returns whether the run ended normally (`true`) or by a
propagating error (`false`), together with the pool of still-open writers at
the moment control reaches the `finally` block. -/
def processEvents (maxOpen : Nat) : List RunEvent → List PoolKey → Bool × List PoolKey
  | [], pool => (true, pool)
  | RunEvent.dataError :: _, pool => (false, pool)
  | RunEvent.access k :: es, pool =>
    match writerFor maxOpen k pool with
    | none => (false, pool)
    | some (pool2, _) => processEvents maxOpen es pool2

/-- The `finally` loop: each still-open handle gets a close attempt; the
returned list records, in order, each attempted key and whether its close
succeeded.  A failed close (`failClose w = true`) is swallowed (`except
Exception: pass`) and the remaining handles are still attempted. -/
def closeAll (failClose : PoolKey → Bool) : List PoolKey → List (PoolKey × Bool)
  | [] => []
  | w :: ws => (w, !failClose w) :: closeAll failClose ws

/-- A full run: process the events, then — on the normal exit and on the error
exit alike — run the `finally` close loop over the remaining writers.  Returns
(run succeeded, pool at exit, close attempts). -/
def runSplit (maxOpen : Nat) (events : List RunEvent) (failClose : PoolKey → Bool) :
    Bool × List PoolKey × List (PoolKey × Bool) :=
  let r := processEvents maxOpen events []
  (r.1, r.2, closeAll failClose r.2)

theorem closeAll_attempts (failClose : PoolKey → Bool) (ws : List PoolKey) :
    (closeAll failClose ws).map Prod.fst = ws := by
  induction ws with
  | nil => rfl
  | cons w ws ih => simp [closeAll, ih]

theorem closeAll_mem (failClose : PoolKey → Bool) (ws : List PoolKey) :
    ∀ w ∈ ws, (w, !failClose w) ∈ closeAll failClose ws := by
  induction ws with
  | nil => intro w hw; simp at hw
  | cons x xs ih =>
    intro w hw
    rcases List.mem_cons.1 hw with rfl | hw2
    · exact List.mem_cons_self _ _
    · exact List.mem_cons_of_mem _ (ih w hw2)

/-- **C6** (confirmed).  On every exit of `split_asset_ctxs_by_coin_month` —
normal or via a data error raised mid-run — every writer handle still open in
the pool receives a close attempt before the call returns or the error
propagates, and this holds for every pattern of individual close failures:
a handle's close failure does not remove any other handle's close attempt. -/
theorem cleanup_on_every_exit (maxOpen : Nat) (events : List RunEvent)
    (failClose : PoolKey → Bool) :
    ((runSplit maxOpen events failClose).2.2.map Prod.fst =
        (runSplit maxOpen events failClose).2.1) ∧
      (∀ w ∈ (runSplit maxOpen events failClose).2.1,
        (w, !failClose w) ∈ (runSplit maxOpen events failClose).2.2) := by
  constructor
  · exact closeAll_attempts failClose (processEvents maxOpen events []).2
  · intro w hw
    exact closeAll_mem failClose (processEvents maxOpen events []).2 w hw

/-! ### String-to-timestamp parsing (`_parse_timestamp_ns_from_str`)

Source:

    s = pc.replace_substring_regex(s, pattern=r"Z$", replacement="")
    s = pc.replace_substring_regex(s, pattern=r"[+-]\d\x7b2\x7d:\d\x7b2\x7d$", replacement="")
    ts1 = pc.strptime(s, format="%Y-%m-%dT%H:%M:%S", unit="ns", error_is_null=True)
    ts2 = pc.strptime(s, format="%Y-%m-%d %H:%M:%S", unit="ns", error_is_null=True)
    ts3 = pc.strptime(s, format="%Y-%m-%dT%H:%M", unit="ns", error_is_null=True)
    ts4 = pc.strptime(s, format="%Y-%m-%d %H:%M", unit="ns", error_is_null=True)
    return pc.coalesce(ts1, ts2, ts3, ts4)

`strptime` with `error_is_null=True` demands a full-string match of the fixed
layout and yields null on failure; `coalesce` picks the first non-null parse
per row.  Epoch arithmetic uses the standard civil-calendar day count. -/

def digitVal (c : Char) : Option Nat :=
  if c.isDigit then some (c.toNat - 48) else none

def parse2 : List Char → Option (Nat × List Char)
  | a :: b :: rest =>
    match digitVal a, digitVal b with
    | some x, some y => some (10 * x + y, rest)
    | _, _ => none
  | _ => none

def parse4 : List Char → Option (Nat × List Char)
  | a :: b :: c :: d :: rest =>
    match digitVal a, digitVal b, digitVal c, digitVal d with
    | some x, some y, some z, some w => some (1000 * x + 100 * y + 10 * z + w, rest)
    | _, _, _, _ => none
  | _ => none

def expectChar (c : Char) : List Char → Option (List Char)
  | a :: rest => if a = c then some rest else none
  | [] => none

/-- Field-range validation performed by `strptime` (month 1-12, day 1-31,
hour 0-23, minute/second 0-59). -/
def validDt (mo d h mi s : Nat) : Bool :=
  1 ≤ mo && mo ≤ 12 && 1 ≤ d && d ≤ 31 && h ≤ 23 && mi ≤ 59 && s ≤ 59

/-- One `strptime` layout `%Y-%m-%d<sep>%H:%M[:%S]`: full-string match or
failure. -/
def parseLayout (sep : Char) (withSec : Bool) (cs : List Char) :
    Option (Nat × Nat × Nat × Nat × Nat × Nat) := do
  let (y, cs) ← parse4 cs
  let cs ← expectChar '-' cs
  let (mo, cs) ← parse2 cs
  let cs ← expectChar '-' cs
  let (d, cs) ← parse2 cs
  let cs ← expectChar sep cs
  let (h, cs) ← parse2 cs
  let cs ← expectChar ':' cs
  let (mi, cs) ← parse2 cs
  if withSec then
    let cs ← expectChar ':' cs
    let (s, cs) ← parse2 cs
    if cs = [] && validDt mo d h mi s then pure (y, mo, d, h, mi, s) else none
  else
    if cs = [] && validDt mo d h mi 0 then pure (y, mo, d, h, mi, 0) else none

/-- Strip a trailing literal `Z` (regex `Z$`). -/
def stripZ (cs : List Char) : List Char :=
  if cs.getLast? = some 'Z' then cs.dropLast else cs

/-- Strip a trailing numeric offset (regex for sign, two digits, colon, two
digits, at end of string). -/
def stripOffset (cs : List Char) : List Char :=
  let n := cs.length
  if 6 ≤ n then
    match cs.drop (n - 6) with
    | [sg, a, b, c, d, e] =>
      if (sg = '+' || sg = '-') && a.isDigit && b.isDigit && c = ':' &&
          d.isDigit && e.isDigit then
        cs.take (n - 6)
      else
        cs
    | _ => cs
  else
    cs

/-- Days from the Unix epoch to civil date `(y, m, d)` (standard
civil-calendar algorithm, exact integer arithmetic). -/
def daysFromCivil (y m d : Int) : Int :=
  let y := y - (if m ≤ 2 then 1 else 0)
  let era := (if 0 ≤ y then y else y - 399) / 400
  let yoe := y - era * 400
  let mp := m + (if 2 < m then -3 else 9)
  let doy := (153 * mp + 2) / 5 + d - 1
  let doe := yoe * 365 + yoe / 4 - yoe / 100 + doy
  era * 146097 + doe - 719468

def nsPerDay : Int := 86400 * 1000000000

/-- Nanoseconds since the epoch for a parsed naive civil datetime. -/
def tsNs : Nat × Nat × Nat × Nat × Nat × Nat → Int
  | (y, mo, d, h, mi, s) =>
    (daysFromCivil y mo d * 86400 + h * 3600 + mi * 60 + s) * 1000000000

/-- `_parse_timestamp_ns_from_str` on one string cell: strip a trailing `Z`
then a trailing offset, try the four layouts, first success wins, null when
none matches. -/
def parseTimestampNs (s : String) : Option Int :=
  let cs := stripOffset (stripZ s.data)
  match parseLayout 'T' true cs with
  | some r => some (tsNs r)
  | none =>
    match parseLayout ' ' true cs with
    | some r => some (tsNs r)
    | none =>
      match parseLayout 'T' false cs with
      | some r => some (tsNs r)
      | none =>
        match parseLayout ' ' false cs with
        | some r => some (tsNs r)
        | none => none

/-- **C8** (confirmed).  The three accepted encodings of 2024-08-01 09:30:00
— trailing-`Z` ISO form, space-separated form, and the no-seconds `T` form —
all parse to the same nanosecond timestamp (1722504600000000000 ns =
2024-08-01 09:30:00 UTC), and a string matching no layout parses to null
instead of raising. -/
theorem timestamp_parsing_cases :
    parseTimestampNs "2024-08-01T09:30:00Z" = some 1722504600000000000 ∧
      parseTimestampNs "2024-08-01 09:30:00" = some 1722504600000000000 ∧
      parseTimestampNs "2024-08-01T09:30" = some 1722504600000000000 ∧
      parseTimestampNs "not-a-date" = none := by
  refine ⟨?_, ?_, ?_, ?_⟩ <;> decide

/-! ### The schema normalizer (`_cast_to_schema`)

Arrow column types relevant to this code: nanosecond timestamp (naive and
tz-aware), date32, utf8 string, float32 and int64; cell values are payloads
tagged by constructor.  Float32 payloads are modelled as integers: the claims
about `_cast_to_schema` concern column structure (names, order, declared
types, null placement, lengths), never float rounding, and pyarrow's
string-to-float cast is modelled on integral strings only — sufficient
because the claims only need some strings to fail the cast.  `pc.cast` with
default (safe) options raises on any valid element that is not convertible;
that is modelled by `castArr` returning `none` when any valid element fails
the element-level conversion. -/

inductive Ty
  | tTs
  | tTsTz
  | tDate
  | tStr
  | tFloat
  | tInt
  deriving DecidableEq, Repr

inductive Val
  | vTs (ns : Int)
  | vDate (days : Int)
  | vStr (s : String)
  | vFloat (x : Int)
  | vInt (n : Int)
  deriving DecidableEq, Repr

def valTy : Val → Ty
  | Val.vTs _ => Ty.tTs
  | Val.vDate _ => Ty.tDate
  | Val.vStr _ => Ty.tStr
  | Val.vFloat _ => Ty.tFloat
  | Val.vInt _ => Ty.tInt

/-- The payload constructor used by a column of declared type `t` (tz-aware
timestamps store the same naive nanosecond payload). -/
def payloadTy : Ty → Ty
  | Ty.tTsTz => Ty.tTs
  | t => t

def parseIntDigits : List Char → Option Nat
  | [] => none
  | [c] => digitVal c
  | c :: rest => do
    let x ← digitVal c
    let r ← parseIntDigits rest
    pure (x * 10 ^ rest.length + r)

/-- pyarrow's string-to-number cast, modelled on integral strings (any other
string fails the cast). -/
def strToNum (s : String) : Option Int :=
  match s.data with
  | '-' :: rest => (parseIntDigits rest).map (fun n => -(n : Int))
  | cs => (parseIntDigits cs).map (fun n => (n : Int))

/-- One-element `pc.cast` to target type `t`: `none` is an unconvertible
element (safe cast failure). -/
def elementCast (t : Ty) (v : Val) : Option Val :=
  match t, v with
  | Ty.tTs, Val.vTs n => some (Val.vTs n)
  | Ty.tTs, Val.vInt n => some (Val.vTs n)
  | Ty.tDate, Val.vDate d => some (Val.vDate d)
  | Ty.tDate, Val.vTs n =>
    if n % nsPerDay = 0 then some (Val.vDate (n / nsPerDay)) else none
  | Ty.tStr, Val.vStr s => some (Val.vStr s)
  | Ty.tFloat, Val.vFloat x => some (Val.vFloat x)
  | Ty.tFloat, Val.vInt n => some (Val.vFloat n)
  | Ty.tFloat, Val.vStr s => (strToNum s).map Val.vFloat
  | Ty.tInt, Val.vInt n => some (Val.vInt n)
  | Ty.tInt, Val.vStr s => (strToNum s).map Val.vInt
  | _, _ => none

structure Column where
  ty : Ty
  data : List (Option Val)
  deriving DecidableEq, Repr

/-- `pc.cast(data, t)`: nulls stay null; the whole cast fails (`none`) if any
valid element is unconvertible. -/
def castData (t : Ty) : List (Option Val) → Option (List (Option Val))
  | [] => some []
  | none :: rest => (castData t rest).map (fun r => none :: r)
  | some v :: rest =>
    match elementCast t v, castData t rest with
    | some w, some r => some (some w :: r)
    | _, _ => none

def castArr (col : Column) (t : Ty) : Option Column :=
  (castData t col.data).map (fun d => ⟨t, d⟩)

/-- `pc.if_else(pc.is_valid(col), col, pa.nulls(len(col), type))`: elementwise
this selects `col`'s value where valid and null where invalid.  (The declared
type is kept — the reading most favorable to the guarded-cast claim.) -/
def ifElseValidNulls (col : Column) : Column :=
  ⟨col.ty, col.data.map (fun o => if o.isSome then o else none)⟩

/-- `_parse_timestamp_ns_from_str` at column level (non-string columns are
returned unchanged, "let caller handle"). -/
def parseTimestampNsFromStrCol (col : Column) : Column :=
  if col.ty = Ty.tStr then
    ⟨Ty.tTs, col.data.map (fun o => o.bind fun v =>
      match v with
      | Val.vStr s => (parseTimestampNs s).map Val.vTs
      | _ => none)⟩
  else
    col

/-- Strip of the time-of-day part (regex replacing from the first `T` or
space to the end). -/
def stripTimePart (cs : List Char) : List Char :=
  cs.takeWhile (fun c => c ≠ 'T' && c ≠ ' ')

/-- `_parse_date32_from_str` on one cell: strip time-of-day, `strptime`
`%Y-%m-%d` to a midnight timestamp, cast down to date32. -/
def parseDateDays (s : String) : Option Int := do
  let cs := stripTimePart s.data
  let (y, cs) ← parse4 cs
  let cs ← expectChar '-' cs
  let (mo, cs) ← parse2 cs
  let cs ← expectChar '-' cs
  let (d, cs) ← parse2 cs
  if cs = [] && validDt mo d 0 0 0 then pure (daysFromCivil y mo d) else none

def parseDate32FromStrCol (col : Column) : Column :=
  if col.ty = Ty.tStr then
    ⟨Ty.tDate, col.data.map (fun o => o.bind fun v =>
      match v with
      | Val.vStr s => (parseDateDays s).map Val.vDate
      | _ => none)⟩
  else
    col

/-- The per-field body of `_cast_to_schema` for a target column present in
the input: the timestamp branch (string parsing, tz dropping, final cast),
the date branch, and the generic branch with its `try`/`except` guarded
cast. -/
def castField (col : Column) (t : Ty) : Option Column :=
  if t = Ty.tTs then
    let col1 :=
      if col.ty = Ty.tStr then parseTimestampNsFromStrCol col
      else if col.ty = Ty.tTsTz then ⟨Ty.tTs, col.data⟩
      else col
    if col1.ty = Ty.tTs then some col1 else castArr col1 Ty.tTs
  else if t = Ty.tDate then
    let col1 := if col.ty = Ty.tStr then parseDate32FromStrCol col else col
    if col1.ty = Ty.tDate then some col1 else castArr col1 Ty.tDate
  else
    if col.ty = t then some col
    else
      match castArr col t with
      | some c => some c
      | none => castArr (ifElseValidNulls col) t

structure Table where
  cols : List (String × Column)
  nrows : Nat
  deriving DecidableEq, Repr

def findCol : List (String × Column) → String → Option Column
  | [], _ => none
  | (n, c) :: rest, nm => if n = nm then some c else findCol rest nm

def castToSchemaCols (tbl : Table) : List (String × Ty) →
    Option (List (String × Column))
  | [] => some []
  | (nm, t) :: fields =>
    let c1 : Option Column :=
      match findCol tbl.cols nm with
      | some col => castField col t
      | none => some ⟨t, List.replicate tbl.nrows none⟩
    match c1, castToSchemaCols tbl fields with
    | some c, some rest => some ((nm, c) :: rest)
    | _, _ => none

/-- `_cast_to_schema`: one column per target field, in target order; present
input columns are cast per `castField`, absent target columns become all-null
columns of the input's row count; input columns not in the target schema are
never consulted (dropped). -/
def castToSchema (tbl : Table) (schema : List (String × Ty)) : Option Table :=
  (castToSchemaCols tbl schema).map (fun cs => ⟨cs, tbl.nrows⟩)

/-- A well-formed input column: every valid cell holds the payload
constructor of the column's declared type. -/
def ColWf (c : Column) : Prop :=
  ∀ v, some v ∈ c.data → valTy v = payloadTy c.ty

theorem elementCast_valTy (t : Ty) (v w : Val) (h : elementCast t v = some w) :
    valTy w = t := by
  cases t <;> cases v <;> simp only [elementCast, Option.map_eq_some'] at h
  all_goals try exact Option.noConfusion h
  all_goals try (obtain rfl := Option.some.inj h; rfl)
  all_goals try (rcases h with ⟨a, -, rfl⟩; rfl)
  split at h
  · obtain rfl := Option.some.inj h; rfl
  · exact Option.noConfusion h

theorem castData_length (t : Ty) :
    ∀ d r, castData t d = some r → r.length = d.length := by
  intro d
  induction d with
  | nil =>
    intro r h
    obtain rfl : [] = r := by simpa [castData] using h
    rfl
  | cons o rest ih =>
    intro r h
    cases o with
    | none =>
      simp only [castData] at h
      rcases Option.map_eq_some'.1 h with ⟨r2, hr2, rfl⟩
      simp [ih r2 hr2]
    | some v =>
      simp only [castData] at h
      cases he : elementCast t v with
      | none => rw [he] at h; exact absurd h (by simp)
      | some w =>
        rw [he] at h
        cases hr : castData t rest with
        | none => rw [hr] at h; exact absurd h (by simp)
        | some r2 =>
          rw [hr] at h
          obtain rfl : some w :: r2 = r := by simpa using h
          simp [ih r2 hr]

theorem castData_welltyped (t : Ty) :
    ∀ d r, castData t d = some r → ∀ v, some v ∈ r → valTy v = t := by
  intro d
  induction d with
  | nil =>
    intro r h v hv
    obtain rfl : [] = r := by simpa [castData] using h
    simp at hv
  | cons o rest ih =>
    intro r h v hv
    cases o with
    | none =>
      simp only [castData] at h
      rcases Option.map_eq_some'.1 h with ⟨r2, hr2, rfl⟩
      rcases List.mem_cons.1 hv with hv | hv
      · exact absurd hv.symm (by simp)
      · exact ih r2 hr2 v hv
    | some w0 =>
      simp only [castData] at h
      cases he : elementCast t w0 with
      | none => rw [he] at h; exact absurd h (by simp)
      | some w =>
        rw [he] at h
        cases hr : castData t rest with
        | none => rw [hr] at h; exact absurd h (by simp)
        | some r2 =>
          rw [hr] at h
          obtain rfl : some w :: r2 = r := by simpa using h
          rcases List.mem_cons.1 hv with hv | hv
          · obtain rfl : v = w := by simpa using hv
            exact elementCast_valTy t w0 v he
          · exact ih r2 hr v hv

theorem castArr_spec (col : Column) (t : Ty) (c : Column)
    (h : castArr col t = some c) :
    c.ty = t ∧ c.data.length = col.data.length ∧
      ∀ v, some v ∈ c.data → valTy v = t := by
  rcases Option.map_eq_some'.1 h with ⟨d, hd, rfl⟩
  exact ⟨rfl, castData_length t col.data d hd, castData_welltyped t col.data d hd⟩

theorem castField_spec (col : Column) (t : Ty) (c : Column)
    (hwf : ColWf col) (ht : t ≠ Ty.tTsTz) (h : castField col t = some c) :
    c.ty = t ∧ c.data.length = col.data.length ∧
      ∀ v, some v ∈ c.data → valTy v = t := by
  unfold castField at h
  by_cases hts : t = Ty.tTs
  · subst hts
    rw [if_pos rfl] at h
    by_cases hstr : col.ty = Ty.tStr
    · rw [if_pos hstr] at h
      have hcol1 : parseTimestampNsFromStrCol col =
          ⟨Ty.tTs, col.data.map (fun o => o.bind fun v =>
            match v with
            | Val.vStr s => (parseTimestampNs s).map Val.vTs
            | _ => none)⟩ := by
        simp only [parseTimestampNsFromStrCol, if_pos hstr]
      rw [hcol1, if_pos rfl] at h
      obtain rfl := Option.some.inj h
      refine ⟨rfl, by simp, ?_⟩
      intro v hv
      rcases List.mem_map.1 hv with ⟨o, -, ho⟩
      rcases o with _ | w
      · exact Option.noConfusion ho
      · rcases w with n | d | s | x | n <;> simp only [Option.some_bind] at ho
        · exact Option.noConfusion ho
        · exact Option.noConfusion ho
        · rcases Option.map_eq_some'.1 ho with ⟨n, -, rfl⟩; rfl
        · exact Option.noConfusion ho
        · exact Option.noConfusion ho
    · rw [if_neg hstr] at h
      by_cases htz : col.ty = Ty.tTsTz
      · rw [if_pos htz, if_pos rfl] at h
        obtain rfl := Option.some.inj h
        refine ⟨rfl, rfl, ?_⟩
        intro v hv
        have hv2 := hwf v hv
        rw [htz] at hv2
        exact hv2
      · rw [if_neg htz] at h
        by_cases hcol : col.ty = Ty.tTs
        · rw [if_pos hcol] at h
          obtain rfl := Option.some.inj h
          refine ⟨hcol, rfl, ?_⟩
          intro v hv
          have hv2 := hwf v hv
          rw [hcol] at hv2
          exact hv2
        · rw [if_neg hcol] at h
          exact castArr_spec col Ty.tTs c h
  · rw [if_neg hts] at h
    by_cases htd : t = Ty.tDate
    · subst htd
      rw [if_pos rfl] at h
      by_cases hstr : col.ty = Ty.tStr
      · rw [if_pos hstr] at h
        have hcol1 : parseDate32FromStrCol col =
            ⟨Ty.tDate, col.data.map (fun o => o.bind fun v =>
              match v with
              | Val.vStr s => (parseDateDays s).map Val.vDate
              | _ => none)⟩ := by
          simp only [parseDate32FromStrCol, if_pos hstr]
        rw [hcol1, if_pos rfl] at h
        obtain rfl := Option.some.inj h
        refine ⟨rfl, by simp, ?_⟩
        intro v hv
        rcases List.mem_map.1 hv with ⟨o, -, ho⟩
        rcases o with _ | w
        · exact Option.noConfusion ho
        · rcases w with n | d | s | x | n <;> simp only [Option.some_bind] at ho
          · exact Option.noConfusion ho
          · exact Option.noConfusion ho
          · rcases Option.map_eq_some'.1 ho with ⟨n, -, rfl⟩; rfl
          · exact Option.noConfusion ho
          · exact Option.noConfusion ho
      · rw [if_neg hstr] at h
        by_cases hcol : col.ty = Ty.tDate
        · rw [if_pos hcol] at h
          obtain rfl := Option.some.inj h
          refine ⟨hcol, rfl, ?_⟩
          intro v hv
          have hv2 := hwf v hv
          rw [hcol] at hv2
          exact hv2
        · rw [if_neg hcol] at h
          exact castArr_spec col Ty.tDate c h
    · rw [if_neg htd] at h
      by_cases hcol : col.ty = t
      · rw [if_pos hcol] at h
        obtain rfl := Option.some.inj h
        refine ⟨hcol, rfl, ?_⟩
        intro v hv
        have hv2 := hwf v hv
        rw [hcol] at hv2
        have hpt : payloadTy t = t := by
          cases t
          · exact rfl
          · exact absurd rfl ht
          · exact rfl
          · exact rfl
          · exact rfl
          · exact rfl
        rwa [hpt] at hv2
      · rw [if_neg hcol] at h
        cases hca : castArr col t with
        | some c2 =>
          rw [hca] at h
          obtain rfl := Option.some.inj h
          exact castArr_spec col t _ hca
        | none =>
          rw [hca] at h
          have hspec := castArr_spec (ifElseValidNulls col) t c h
          refine ⟨hspec.1, ?_, hspec.2.2⟩
          rw [hspec.2.1]
          simp [ifElseValidNulls]

theorem findCol_mem (cols : List (String × Column)) (nm : String) (c : Column)
    (h : findCol cols nm = some c) : (nm, c) ∈ cols := by
  induction cols with
  | nil => simp [findCol] at h
  | cons p rest ih =>
    obtain ⟨n, c0⟩ := p
    simp only [findCol] at h
    by_cases hn : n = nm
    · rw [if_pos hn] at h
      obtain rfl := Option.some.inj h
      rw [hn]
      exact List.mem_cons_self _ _
    · rw [if_neg hn] at h
      exact List.mem_cons_of_mem _ (ih h)

theorem castToSchemaCols_spec (tbl : Table)
    (hwf : ∀ p ∈ tbl.cols, p.2.data.length = tbl.nrows ∧ ColWf p.2) :
    ∀ schema cs, (∀ f ∈ schema, f.2 ≠ Ty.tTsTz) →
      castToSchemaCols tbl schema = some cs →
      List.Forall₂ (fun (oc : String × Column) (f : String × Ty) =>
        oc.1 = f.1 ∧ oc.2.ty = f.2 ∧ oc.2.data.length = tbl.nrows ∧
          (∀ v, some v ∈ oc.2.data → valTy v = f.2) ∧
          (findCol tbl.cols f.1 = none →
            oc.2.data = List.replicate tbl.nrows none)) cs schema := by
  intro schema
  induction schema with
  | nil =>
    intro cs _ h
    obtain rfl : [] = cs := by simpa [castToSchemaCols] using h
    exact List.Forall₂.nil
  | cons f fields ih =>
    intro cs hs h
    obtain ⟨nm, t⟩ := f
    simp only [castToSchemaCols] at h
    cases hf : findCol tbl.cols nm with
    | some col =>
      rw [hf] at h
      dsimp only at h
      cases hcf : castField col t with
      | none => rw [hcf] at h; exact absurd h (by simp)
      | some c =>
        rw [hcf] at h
        cases hrest : castToSchemaCols tbl fields with
        | none => rw [hrest] at h; exact absurd h (by simp)
        | some rest =>
          rw [hrest] at h
          obtain rfl : (nm, c) :: rest = cs := by simpa using h
          have hcolwf := hwf (nm, col) (findCol_mem tbl.cols nm col hf)
          have hcs := castField_spec col t c hcolwf.2
            (hs (nm, t) (List.mem_cons_self _ _)) hcf
          refine List.Forall₂.cons ⟨rfl, hcs.1, ?_, hcs.2.2, ?_⟩
            (ih rest (fun g hg => hs g (List.mem_cons_of_mem _ hg)) hrest)
          · rw [hcs.2.1]; exact hcolwf.1
          · intro hnone; rw [hf] at hnone; exact absurd hnone (by simp)
    | none =>
      rw [hf] at h
      dsimp only at h
      cases hrest : castToSchemaCols tbl fields with
      | none => rw [hrest] at h; exact absurd h (by simp)
      | some rest =>
        rw [hrest] at h
        obtain rfl : (nm, ⟨t, List.replicate tbl.nrows none⟩) :: rest = cs := by
          simpa using h
        refine List.Forall₂.cons ⟨rfl, rfl, by simp, ?_, fun _ => rfl⟩
          (ih rest (fun g hg => hs g (List.mem_cons_of_mem _ hg)) hrest)
        intro v hv
        exact absurd (List.eq_of_mem_replicate hv) (by simp)

theorem forall₂_map_fst {α β δ : Type} (P : α × β → α × δ → Prop)
    (hP : ∀ a b, P a b → a.1 = b.1) :
    ∀ l1 l2, List.Forall₂ P l1 l2 → l1.map Prod.fst = l2.map Prod.fst := by
  intro l1
  induction l1 with
  | nil => intro l2 h; cases h; rfl
  | cons a as ih =>
    intro l2 h
    cases h with
    | cons hab hrest =>
      simp only [List.map_cons]
      rw [hP _ _ hab, ih _ hrest]

/-- **C5** (confirmed).  Whenever `_cast_to_schema` returns a table for a
well-formed input, the result has exactly the target schema's column names,
in the target order, with each column declared and populated at the target
type and of length equal to the input's row count; target columns absent from
the input are all-null columns of that length; extra input columns are
dropped (the output's name list is exactly the schema's). -/
theorem cast_to_schema_conformance (tbl : Table) (schema : List (String × Ty))
    (hwf : ∀ p ∈ tbl.cols, p.2.data.length = tbl.nrows ∧ ColWf p.2)
    (hs : ∀ f ∈ schema, f.2 ≠ Ty.tTsTz)
    (out : Table) (hout : castToSchema tbl schema = some out) :
    out.cols.map Prod.fst = schema.map Prod.fst ∧ out.nrows = tbl.nrows ∧
      List.Forall₂ (fun (oc : String × Column) (f : String × Ty) =>
        oc.1 = f.1 ∧ oc.2.ty = f.2 ∧ oc.2.data.length = tbl.nrows ∧
          (∀ v, some v ∈ oc.2.data → valTy v = f.2) ∧
          (findCol tbl.cols f.1 = none →
            oc.2.data = List.replicate tbl.nrows none)) out.cols schema := by
  rcases Option.map_eq_some'.1 hout with ⟨cs, hcs, rfl⟩
  have hmain := castToSchemaCols_spec tbl hwf schema cs hs hcs
  exact ⟨forall₂_map_fst _ (fun a b hab => hab.1) cs schema hmain, rfl, hmain⟩

/-- **C5** witness: a one-row input with a string `time` column, a `funding`
int column castable to float, an extra column `junk`, and no `coin` column,
normalized against a three-field target schema. -/
theorem cast_to_schema_conformance_witness :
    ∃ out, castToSchema
        ⟨[("time", ⟨Ty.tStr, [some (Val.vStr "2024-08-01T09:30:00Z")]⟩),
          ("funding", ⟨Ty.tInt, [some (Val.vInt 3)]⟩),
          ("junk", ⟨Ty.tInt, [some (Val.vInt 9)]⟩)], 1⟩
        [("time", Ty.tTs), ("coin", Ty.tStr), ("funding", Ty.tFloat)] =
        some out ∧
      out.cols.map Prod.fst = ["time", "coin", "funding"] := by
  refine ⟨⟨[("time", ⟨Ty.tTs, [some (Val.vTs 1722504600000000000)]⟩),
    ("coin", ⟨Ty.tStr, [none]⟩),
    ("funding", ⟨Ty.tFloat, [some (Val.vFloat 3)]⟩)], 1⟩, by decide, ?_⟩
  have h := cast_to_schema_conformance
    ⟨[("time", ⟨Ty.tStr, [some (Val.vStr "2024-08-01T09:30:00Z")]⟩),
      ("funding", ⟨Ty.tInt, [some (Val.vInt 3)]⟩),
      ("junk", ⟨Ty.tInt, [some (Val.vInt 9)]⟩)], 1⟩
    [("time", Ty.tTs), ("coin", Ty.tStr), ("funding", Ty.tFloat)]
    (by
      intro p hp
      simp only [List.mem_cons, List.not_mem_nil, or_false] at hp
      rcases hp with rfl | rfl | rfl
      · refine ⟨rfl, ?_⟩
        intro v hv
        rw [List.mem_singleton] at hv
        obtain rfl := Option.some.inj hv
        rfl
      · refine ⟨rfl, ?_⟩
        intro v hv
        rw [List.mem_singleton] at hv
        obtain rfl := Option.some.inj hv
        rfl
      · refine ⟨rfl, ?_⟩
        intro v hv
        rw [List.mem_singleton] at hv
        obtain rfl := Option.some.inj hv
        rfl)
    (by
      intro f hf
      simp only [List.mem_cons, List.not_mem_nil, or_false] at hf
      rcases hf with rfl | rfl | rfl <;> decide)
    ⟨[("time", ⟨Ty.tTs, [some (Val.vTs 1722504600000000000)]⟩),
      ("coin", ⟨Ty.tStr, [none]⟩),
      ("funding", ⟨Ty.tFloat, [some (Val.vFloat 3)]⟩)], 1⟩
    (by decide)
  exact h.1

/-- The `except`-branch guarded cast of `_cast_to_schema` recasts exactly the
same valid elements as the direct cast (the validity mask reflects null-ness
only), so it fails whenever the direct cast failed. -/
theorem guarded_cast_no_rescue (col : Column) (t : Ty) :
    castArr (ifElseValidNulls col) t = castArr col t := by
  have hdata : (ifElseValidNulls col).data = col.data := by
    simp only [ifElseValidNulls]
    induction col.data with
    | nil => rfl
    | cons o rest ih =>
      cases o <;> simp_all
  unfold castArr
  rw [hdata]

/-- **C7** (code_bug).  A valid but non-castable element aborts the whole
column and batch: on the column `funding = ["abc"]` against target float32
the direct cast fails, and the guarded fallback — which masks on
`pc.is_valid` (null-ness), not castability — recasts the same element and
fails again, so `_cast_to_schema` raises instead of nulling the element as
claimed. -/
theorem guarded_cast_aborts_on_invalid_element :
    castToSchema ⟨[("funding", ⟨Ty.tStr, [some (Val.vStr "abc")]⟩)], 1⟩
        [("funding", Ty.tFloat)] = none ∧
      ifElseValidNulls ⟨Ty.tStr, [some (Val.vStr "abc")]⟩ =
        ⟨Ty.tStr, [some (Val.vStr "abc")]⟩ := by
  exact ⟨by decide, by decide⟩

/-! ### Month derivation and the batch split (`split_asset_ctxs_by_coin_month`)

Per batch the source filters at scan level (`coin` and `time` valid), casts to
the target schema, enumerates distinct coins (`pc.unique`), and per coin:

    base_date = c_tbl["date"]
    if (not pa.types.is_date32(base_date.type)
            and not pc.any(pc.is_valid(base_date)).as_py()):
        base_date = c_tbl["time"]
    months = _month_str(base_date)
    uniq_months = pc.unique(months).to_pylist()
    for m in uniq_months:
        m_mask = pc.equal(months, pa.scalar(m))
        cm_tbl = c_tbl.filter(m_mask)
        if cm_tbl.num_rows == 0: continue
        ... write ...
        counts[(coin, m)] = counts.get((coin, m), 0) + cm_tbl.num_rows

`_month_str` casts to timestamp then formats `"%Y-%m"`; `strftime` of a null
is null.  When `m` is Python `None`, `pa.scalar(m)` is a null scalar and
`pc.equal` yields an all-null mask, which `filter` treats as all-false.
After `_cast_to_schema` the date column's declared type is always the
target's date32 (`cast_to_schema` conformance), so the time fallback guard
`not is_date32 and ...` can never fire and a row whose date cell is null gets
a null month.  Rows are typed records here (the scanner projects exactly the
target columns); the date column's runtime type is passed explicitly so the
guard stays visible. -/

/-- Civil date `(y, m, d)` of a day count from the Unix epoch (standard
civil-calendar algorithm; `strftime`'s calendar). -/
def civilFromDays (z : Int) : Int × Int × Int :=
  let z2 := z + 719468
  let era := Int.fdiv z2 146097
  let doe := z2 - era * 146097
  let yoe := (doe - doe / 1460 + doe / 36524 - doe / 146096) / 365
  let y := yoe + era * 400
  let doy := doe - (365 * yoe + yoe / 4 - yoe / 100)
  let mp := (5 * doy + 2) / 153
  let d := doy - (153 * mp + 2) / 5 + 1
  let m := mp + (if mp < 10 then 3 else -9)
  (if m ≤ 2 then y + 1 else y, m, d)

/-- `strftime(_, "%Y-%m")`: zero-padded month. -/
def fmtYm (y m : Int) : String :=
  toString y ++ "-" ++ (if m < 10 then "0" ++ toString m else toString m)

def monthOfDays (days : Int) : String :=
  match civilFromDays days with
  | (y, m, _) => fmtYm y m

structure CtxRow where
  coin : Option String
  time : Option Int
  date : Option Int
  deriving DecidableEq, Repr

/-- `pc.unique`: distinct values in first-appearance order. -/
def uniqFirst {α : Type} [DecidableEq α] (l : List α) : List α :=
  l.foldl (fun acc a => if a ∈ acc then acc else acc ++ [a]) []

/-- The per-coin month column: `_month_str` of the date column, except that
when the date column is not date32-typed and holds no valid value the time
column is formatted instead (`_month_str` casts date32 to timestamp and
formats `"%Y-%m"`; a null cell formats to null). -/
def monthsOf (dateTy : Ty) (rows : List CtxRow) : List (Option String) :=
  if dateTy ≠ Ty.tDate ∧ ¬ rows.any (fun r => r.date.isSome) then
    rows.map (fun r => r.time.map (fun n => monthOfDays (Int.fdiv n nsPerDay)))
  else
    rows.map (fun r => r.date.map monthOfDays)

/-- The per-coin loop body: filter the batch to the coin, derive months,
enumerate distinct months, filter per month (a null month scalar compares to
an all-null mask, dropping every row) and emit this batch's count increment
per (coin, month) key. -/
def processCoin (dateTy : Ty) (tbl : List CtxRow) (c : String) :
    List ((String × String) × Nat) :=
  let cTbl := tbl.filter (fun r => r.coin = some c)
  if cTbl.length = 0 then []
  else
    let months := monthsOf dateTy cTbl
    (uniqFirst months).flatMap (fun m =>
      match m with
      | none => []
      | some s =>
        let cmLen := (months.filter (fun mo => mo = some s)).length
        if cmLen = 0 then [] else [((c, s), cmLen)])

/-- One batch: the scan filter admits rows with valid `coin` and `time`, then
the two-level coin/month grouping runs.  (A null coin cannot survive the
filter; its branch mirrors the null-scalar comparison.) -/
def processBatch (dateTy : Ty) (batch : List CtxRow) :
    List ((String × String) × Nat) :=
  let tbl := batch.filter (fun r => r.coin.isSome && r.time.isSome)
  if tbl.length = 0 then []
  else
    (uniqFirst (tbl.map (fun r => r.coin))).flatMap (fun co =>
      match co with
      | none => []
      | some c => processCoin dateTy tbl c)

/-- The full run's count increments, all batches concatenated (the counts
dict sums increments per key, so the total over all increments equals the
total over the returned mapping).  The date column's runtime type is the
target's date32 after normalization. -/
def splitAssetCtxsByCoinMonth (batches : List (List CtxRow)) :
    List ((String × String) × Nat) :=
  batches.flatMap (processBatch Ty.tDate)

/-- Rows admitted by the scan filter over the whole run. -/
def admittedCount (batches : List (List CtxRow)) : Nat :=
  (batches.map
    (fun b => (b.filter (fun r => r.coin.isSome && r.time.isSome)).length)).sum

/-- The sum of the per-key counts in the returned mapping. -/
def totalRowsCounted (batches : List (List CtxRow)) : Nat :=
  ((splitAssetCtxsByCoinMonth batches).map Prod.snd).sum

/-- An admitted row (valid coin and time) whose `date` cell is null. -/
def nullDateRow : CtxRow := ⟨some "BTC", some 1722504600000000000, none⟩

/-- The same row with a valid `date` cell (2024-08-01 = epoch day 19936). -/
def validDateRow : CtxRow := ⟨some "BTC", some 1722504600000000000, some 19936⟩

/-- **C1** (code_bug).  Partition completeness fails for admitted rows with a
null `date`: after normalization the date column is date32-typed, so the
time fallback guard (`not is_date32 and no valid values`) can never fire;
the row's month formats to null, the null month scalar filters out every row,
and the row is neither written nor counted.  A single admitted row with null
`date` yields total count 0, not 1; the same row with a valid date is counted
under ("BTC", "2024-08") as the claim describes. -/
theorem partition_completeness_fails_on_null_date :
    admittedCount [[nullDateRow]] = 1 ∧
      totalRowsCounted [[nullDateRow]] = 0 ∧
      splitAssetCtxsByCoinMonth [[nullDateRow]] = [] ∧
      splitAssetCtxsByCoinMonth [[validDateRow]] = [(("BTC", "2024-08"), 1)] := by
  refine ⟨by decide, by decide, by decide, by decide⟩

/-! ### The regular-trading-hours filter (`clean_to_rth`)

Source (`src/quant_research/processing/clean_intraday.py`): localize both
frames to the session timezone, sort by index, keep weekdays
(`dayofweek < 5`), keep times of day between 09:30 and 16:00 (both ends when
`include_close_bar`, else the right end excluded), reindex both frames to the
union of the two filtered indices, and drop rows where the price row and the
volume row are both entirely NaN.

Frames are modelled with tz-local timestamps in minutes (`Int`), NaN cells as
`none`; `reindex` of a missing label fills an all-NaN row.  Epoch day 0
(1970-01-01) was a Thursday, pandas weekday Monday = 0, hence the `+ 3`. -/

abbrev RthRow := List (Option Int)

structure Frame where
  ncols : Nat
  rows : List (Int × RthRow)
  deriving DecidableEq, Repr

def dayOfWeek (t : Int) : Int := Int.emod (Int.fdiv t 1440 + 3) 7

def minuteOfDay (t : Int) : Int := Int.emod t 1440

def insertRow (p : Int × RthRow) : List (Int × RthRow) → List (Int × RthRow)
  | [] => [p]
  | q :: qs => if p.1 ≤ q.1 then p :: q :: qs else q :: insertRow p qs

/-- `sort_index()` (stable insertion sort by timestamp). -/
def sortRows (l : List (Int × RthRow)) : List (Int × RthRow) :=
  l.foldr insertRow []

/-- `between_time("09:30", "16:00", inclusive)`: 09:30 = 570, 16:00 = 960
minutes; the right end is included only with the close bar. -/
def inRth (includeClose : Bool) (t : Int) : Bool :=
  decide (570 ≤ minuteOfDay t) &&
    (if includeClose then decide (minuteOfDay t ≤ 960)
     else decide (minuteOfDay t < 960))

/-- One frame's pipeline before reindexing: sort, weekday filter,
time-of-day filter. -/
def rthFilter (ic : Bool) (rows : List (Int × RthRow)) : List (Int × RthRow) :=
  ((sortRows rows).filter (fun p => decide (dayOfWeek p.1 < 5))).filter
    (fun p => inRth ic p.1)

def insertInt (t : Int) : List Int → List Int
  | [] => [t]
  | u :: us => if t ≤ u then t :: u :: us else u :: insertInt t us

def sortInts (l : List Int) : List Int := l.foldr insertInt []

/-- `Index.union`: sorted distinct union of the two filtered indices. -/
def unionIdx (a b : List Int) : List Int := sortInts (uniqFirst (a ++ b))

/-- Label lookup for `reindex`. -/
def findRow (rows : List (Int × RthRow)) (t : Int) : Option RthRow :=
  match rows with
  | [] => none
  | (u, r) :: rest => if u = t then some r else findRow rest t

/-- `isna().all(axis=1)`. -/
def allNone (r : RthRow) : Bool := r.all (fun o => o.isNone)

/-- Both frames reindexed to the union index (missing labels become all-NaN
rows of the frame's width). -/
def rthTriples (p v : Frame) (ic : Bool) : List (Int × RthRow × RthRow) :=
  (unionIdx ((rthFilter ic p.rows).map Prod.fst)
      ((rthFilter ic v.rows).map Prod.fst)).map
    (fun t =>
      (t, (findRow (rthFilter ic p.rows) t).getD (List.replicate p.ncols none),
        (findRow (rthFilter ic v.rows) t).getD (List.replicate v.ncols none)))

/-- `mask = ~(prices.isna().all(1) & volumes.isna().all(1))`, applied to both
reindexed frames. -/
def rthKept (p v : Frame) (ic : Bool) : List (Int × RthRow × RthRow) :=
  (rthTriples p v ic).filter (fun tr => !(allNone tr.2.1 && allNone tr.2.2))

/-- `clean_to_rth`: the two returned frames. -/
def cleanToRth (p v : Frame) (ic : Bool) : Frame × Frame :=
  (⟨p.ncols, (rthKept p v ic).map (fun tr => (tr.1, tr.2.1))⟩,
    ⟨v.ncols, (rthKept p v ic).map (fun tr => (tr.1, tr.2.2))⟩)

theorem mem_uniqFirst {α : Type} [DecidableEq α] (l : List α) (x : α)
    (h : x ∈ uniqFirst l) : x ∈ l := by
  have key : ∀ (l2 : List α) (acc : List α),
      x ∈ l2.foldl (fun acc a => if a ∈ acc then acc else acc ++ [a]) acc →
        x ∈ acc ∨ x ∈ l2 := by
    intro l2
    induction l2 with
    | nil => intro acc h2; exact Or.inl h2
    | cons a as ih =>
      intro acc h2
      rw [List.foldl_cons] at h2
      rcases ih _ h2 with h3 | h3
      · by_cases ha : a ∈ acc
        · rw [if_pos ha] at h3
          exact Or.inl h3
        · rw [if_neg ha] at h3
          rcases List.mem_append.1 h3 with h4 | h4
          · exact Or.inl h4
          · rw [List.mem_singleton] at h4
            exact Or.inr (h4 ▸ List.mem_cons_self _ _)
      · exact Or.inr (List.mem_cons_of_mem _ h3)
  rcases key l [] h with h2 | h2
  · exact absurd h2 (List.not_mem_nil x)
  · exact h2

theorem mem_insertInt (t x : Int) (l : List Int) (h : x ∈ insertInt t l) :
    x = t ∨ x ∈ l := by
  induction l with
  | nil => simpa [insertInt] using h
  | cons u us ih =>
    simp only [insertInt] at h
    by_cases hle : t ≤ u
    · rw [if_pos hle] at h
      rcases List.mem_cons.1 h with rfl | h2
      · exact Or.inl rfl
      · exact Or.inr h2
    · rw [if_neg hle] at h
      rcases List.mem_cons.1 h with rfl | h2
      · exact Or.inr (List.mem_cons_self _ _)
      · rcases ih h2 with h3 | h3
        · exact Or.inl h3
        · exact Or.inr (List.mem_cons_of_mem _ h3)

theorem mem_sortInts (l : List Int) (x : Int) (h : x ∈ sortInts l) : x ∈ l := by
  induction l with
  | nil => simp [sortInts] at h
  | cons u us ih =>
    rcases mem_insertInt u x (sortInts us) h with rfl | h2
    · exact List.mem_cons_self _ _
    · exact List.mem_cons_of_mem _ (ih h2)

theorem mem_unionIdx (a b : List Int) (x : Int) (h : x ∈ unionIdx a b) :
    x ∈ a ∨ x ∈ b :=
  List.mem_append.1 (mem_uniqFirst _ x (mem_sortInts _ x h))

/-- Every timestamp surviving one frame's weekday and time-of-day filters is
a weekday timestamp inside the session window. -/
theorem mem_rthFilter_fst (ic : Bool) (rows : List (Int × RthRow)) (t : Int)
    (ht : t ∈ (rthFilter ic rows).map Prod.fst) :
    dayOfWeek t < 5 ∧ 570 ≤ minuteOfDay t ∧ minuteOfDay t ≤ 960 ∧
      (ic = false → minuteOfDay t < 960) := by
  rcases List.mem_map.1 ht with ⟨pr, hpr, rfl⟩
  unfold rthFilter at hpr
  rcases List.mem_filter.1 hpr with ⟨hpr2, hrth⟩
  rcases List.mem_filter.1 hpr2 with ⟨-, hdow⟩
  refine ⟨of_decide_eq_true hdow, ?_⟩
  unfold inRth at hrth
  rw [Bool.and_eq_true] at hrth
  obtain ⟨h1, h2⟩ := hrth
  refine ⟨of_decide_eq_true h1, ?_, ?_⟩
  · cases ic with
    | false =>
      rw [if_neg (by simp)] at h2
      have h3 := of_decide_eq_true h2
      omega
    | true =>
      rw [if_pos rfl] at h2
      exact of_decide_eq_true h2
  · intro hic
    rw [hic, if_neg (by simp)] at h2
    exact of_decide_eq_true h2

/-- **C10** (confirmed).  `clean_to_rth` returns two frames with identical
indices; every returned timestamp falls on a weekday (Monday..Friday) with
time of day between 09:30 and 16:00 inclusive — with 16:00 excluded when
`include_close_bar` is false — and no returned position has the price row and
the volume row simultaneously all-NaN. -/
theorem clean_to_rth_spec (p v : Frame) (ic : Bool) :
    ((cleanToRth p v ic).1.rows.map Prod.fst =
        (cleanToRth p v ic).2.rows.map Prod.fst) ∧
      (∀ t ∈ (cleanToRth p v ic).1.rows.map Prod.fst,
        dayOfWeek t < 5 ∧ 570 ≤ minuteOfDay t ∧ minuteOfDay t ≤ 960 ∧
          (ic = false → minuteOfDay t < 960)) ∧
      (∀ pr vr,
        (pr, vr) ∈ (cleanToRth p v ic).1.rows.zip (cleanToRth p v ic).2.rows →
          ¬(allNone pr.2 = true ∧ allNone vr.2 = true)) := by
  refine ⟨?_, ?_, ?_⟩
  · show ((rthKept p v ic).map (fun tr => (tr.1, tr.2.1))).map Prod.fst =
      ((rthKept p v ic).map (fun tr => (tr.1, tr.2.2))).map Prod.fst
    rw [List.map_map, List.map_map]
    rfl
  · intro t ht
    have ht2 : t ∈ (rthKept p v ic).map (fun tr => tr.1) := by
      have : ((rthKept p v ic).map (fun tr => (tr.1, tr.2.1))).map Prod.fst =
          (rthKept p v ic).map (fun tr => tr.1) := by
        rw [List.map_map]; rfl
      rw [← this]
      exact ht
    rcases List.mem_map.1 ht2 with ⟨tr, htr, rfl⟩
    have htr2 : tr ∈ rthTriples p v ic := List.mem_of_mem_filter htr
    rcases List.mem_map.1 htr2 with ⟨u, hu, rfl⟩
    rcases mem_unionIdx _ _ _ hu with h | h
    · exact mem_rthFilter_fst ic p.rows u h
    · exact mem_rthFilter_fst ic v.rows u h
  · intro pr vr hmem
    have hz : (cleanToRth p v ic).1.rows.zip (cleanToRth p v ic).2.rows =
        (rthKept p v ic).map (fun tr => ((tr.1, tr.2.1), (tr.1, tr.2.2))) := by
      show ((rthKept p v ic).map (fun tr => (tr.1, tr.2.1))).zip
          ((rthKept p v ic).map (fun tr => (tr.1, tr.2.2))) = _
      rw [List.zip_map']
    rw [hz] at hmem
    rcases List.mem_map.1 hmem with ⟨tr, htr, heq⟩
    obtain ⟨rfl, rfl⟩ : pr = (tr.1, tr.2.1) ∧ vr = (tr.1, tr.2.2) := by
      constructor
      · exact (congrArg Prod.fst heq).symm
      · exact (congrArg Prod.snd heq).symm
    have hpred := List.of_mem_filter htr
    intro hcon
    rw [hcon.1, hcon.2] at hpred
    simp at hpred

/-- **C10** witness: one Monday-10:00 bar present in both frames survives,
and the theorem's window facts hold for it. -/
theorem clean_to_rth_spec_witness :
    dayOfWeek 6360 < 5 ∧ 570 ≤ minuteOfDay 6360 ∧ minuteOfDay 6360 ≤ 960 ∧
      (true = false → minuteOfDay 6360 < 960) :=
  (clean_to_rth_spec ⟨1, [(6360, [some 100])]⟩ ⟨1, [(6360, [some 5])]⟩
    true).2.1 6360 (by decide)

end QR
